import Mathlib

/-!
Verification of the caret/selection core of the vibe-text-editor repository.

The document inside the editor root is modelled as the list of leaves the
editor's tree walkers enumerate (every text node and every atomic component,
in document order); container elements are represented only through the
classification facts the algorithms read off them (whether a text leaf sits
inside an inline wrapper, whether an atomic element's computed display is
block-level).  Layout-dependent services (client rectangles, caret-from-point)
are parameters, mirroring that the source delegates them to the host layout
engine.
-/

namespace VibeTextEditor

/-- Tag names the source tests with nodeName / tagName comparisons
(isAtomicComponent, the BR check in modify). -/
inductive Tag where
  | BR
  | HR
  | IMG
  | TABLE
  | other
deriving DecidableEq, Repr

/-- A leaf addressable by the editor walkers: a text node (its characters and
whether its parent element is an inline wrapper) or an atomic component (its
tag and whether its computed display is block-level). -/
inductive Leaf where
  | text (s : List Char) (inInline : Bool)
  | atomic (tag : Tag) (isBlock : Bool)
deriving DecidableEq, Repr

/-- The editor root's leaves in document order, as enumerated by
EditorTreeWalker / traversePreOrderGenerator with the acceptNode filter
(text nodes and atomic components). -/
abbrev Document := List Leaf

/-- isAtomicComponent (src/src/main.ts): elements with tag BR/HR/IMG/TABLE or
the atomic-component class are atomic; text nodes are not.  In the leaf model
every non-text leaf is an atomic component. -/
def isAtomicComponent : Leaf → Bool
  | Leaf.text _ _ => false
  | Leaf.atomic _ _ => true

/-- isBlockElement (src/src/dom/isBlockElement.ts): consults computed display;
false for text nodes.  The computed fact is carried on the atomic leaf. -/
def isBlockElement : Leaf → Bool
  | Leaf.text _ _ => false
  | Leaf.atomic _ b => b

/-- getAfterOffset (src/src/main.ts line 1084):
isElementNode(node) ? 1 : node.textContent?.length || 0. -/
def getAfterOffset : Leaf → Int
  | Leaf.text s _ => s.length
  | Leaf.atomic _ _ => 1

/-- A caret position: a leaf (by index in document order) and an offset.
Offsets are integers because movement produces transient out-of-range
values (offset ± 1) that only normalization folds back. -/
structure Position where
  leaf : Nat
  offset : Int
deriving DecidableEq, Repr

/-- Selection state of EditorSelection (src/src/main.ts lines 1229-1237):
anchor, focus, goalX. -/
structure SelState where
  anchor : Option Position
  focus : Option Position
  goalX : Option ℚ
deriving DecidableEq, Repr

inductive Dir where
  | forward
  | backward
deriving DecidableEq, Repr

inductive MType where
  | move
  | extend
deriving DecidableEq, Repr

/-- Granularities.  The TS union on modify lists
character/word/line/paragraph/sentence/lineboundary; documentboundary is the
string callers elsewhere in the repo pass at runtime, and it reaches the same
fall-through (return null) path of calculateNewPosition. -/
inductive Gran where
  | character
  | word
  | line
  | paragraph
  | sentence
  | lineboundary
  | documentboundary
deriving DecidableEq, Repr

/-- The offset < 0 arm of the normalizePosition loop (src/src/main.ts lines
1023-1043): step to the previous walker node; a text predecessor absorbs the
deficit (off + length), an atomic predecessor yields (prev, 1), no predecessor
yields (current, 0).  After absorbing, off + length < length, so the
offset > length arm of the loop can never fire; the loop therefore only
re-tests off < 0, which this recursion mirrors. -/
def normDown (doc : Document) : Nat → Int → Position
  | 0, off => if off < 0 then ⟨0, 0⟩ else ⟨0, off⟩
  | i + 1, off =>
    if off < 0 then
      match doc[i]? with
      | some (Leaf.text s _) => normDown doc i (off + s.length)
      | some (Leaf.atomic _ _) => ⟨i, 1⟩
      | none => ⟨i + 1, 0⟩
    else ⟨i + 1, off⟩

/-- The offset > length arm of the normalizePosition loop (src/src/main.ts
lines 1044-1063): step to the next walker node; a text successor receives the
surplus (off − current length), an atomic successor yields (next, 0), no
successor yields (current, length).  The surplus stays positive, so the
off < 0 arm can never fire afterwards.  The list argument is the tail of the
document after the current leaf, the Int is the current leaf's after-offset,
the Nat its index. -/
def normUp : List Leaf → Int → Nat → Int → Position
  | [], curLen, i, off => if off > curLen then ⟨i, curLen⟩ else ⟨i, off⟩
  | l :: rest, curLen, i, off =>
    if off > curLen then
      match l with
      | Leaf.text s _ => normUp rest s.length (i + 1) (off - curLen)
      | Leaf.atomic _ _ => ⟨i + 1, 0⟩
    else ⟨i, off⟩

/-- normalizePosition (src/src/main.ts lines 1018-1082).  Text nodes run the
walker loop (normDown / normUp); atomic elements clamp the offset with the
offset < 0.5 test, which on integer offsets is off ≤ 0; a missing node is
returned unchanged (the container arm of the source is a TODO that also
returns its input unchanged). -/
def normalizePosition (doc : Document) (i : Nat) (off : Int) : Position :=
  match doc[i]? with
  | some (Leaf.text s _) =>
    if off < 0 then normDown doc i off
    else if off > (s.length : Int) then normUp (doc.drop (i + 1)) s.length i off
    else ⟨i, off⟩
  | some (Leaf.atomic _ _) => ⟨i, if off ≤ 0 then 0 else 1⟩
  | none => ⟨i, off⟩

/-- EditorSelection.collapse (src/src/main.ts lines 1296-1300): normalize,
then set focus and anchor to the result; goalX untouched. -/
def collapse (doc : Document) (s : SelState) (i : Nat) (off : Int) : SelState :=
  let p := normalizePosition doc i off
  { s with focus := some p, anchor := some p }

/-- EditorSelection.setBaseAndExtent (src/src/main.ts lines 1307-1313):
normalize both endpoints and store them; goalX untouched. -/
def setBaseAndExtent (doc : Document) (s : SelState)
    (ai : Nat) (aoff : Int) (fi : Nat) (foff : Int) : SelState :=
  let a := normalizePosition doc ai aoff
  let f := normalizePosition doc fi foff
  { s with anchor := some a, focus := some f }

/-- EditorSelection.extend (src/src/main.ts lines 1302-1305): normalize the
new focus, then setBaseAndExtent from the current anchor.  The source
dereferences this.anchor! unconditionally, so a missing anchor is a runtime
error, modelled as none. -/
def extendSel (doc : Document) (s : SelState) (i : Nat) (off : Int) :
    Option SelState :=
  match s.anchor with
  | none => none
  | some a =>
    let f := normalizePosition doc i off
    some (setBaseAndExtent doc s a.leaf a.offset f.leaf f.offset)

/-- A layout rectangle in viewport coordinates (DOMRect: x/left, y/top,
width, height; right and bottom derived). -/
structure Rect where
  left : ℚ
  top : ℚ
  width : ℚ
  height : ℚ
deriving DecidableEq, Repr

def Rect.right (r : Rect) : ℚ := r.left + r.width

def Rect.bottom (r : Rect) : ℚ := r.top + r.height

instance : Inhabited Rect := ⟨⟨0, 0, 0, 0⟩⟩

/-- One record of the rect walker stream: (node, rect, lineOffset). -/
structure WalkRec where
  node : Nat
  rect : Rect
  lineOffset : Int
deriving DecidableEq, Repr

/-- The layout services modify consults: the client rects of the selection's
range (this.range.getClientRects()), the rect-walker stream from a position in
a direction (EditorRangeRectWalker.walk materialised), and
Editor.getPositionFromPoint.  They are host-layout functions, so they are
parameters of the model. -/
structure Layout where
  rangeRects : Option Position → Option Position → List Rect
  walkRects : Nat → Int → Dir → List WalkRec
  posFromPoint : ℚ → ℚ → Option Position

/-- A layout that reports nothing; character movement never consults it. -/
def trivialLayout : Layout where
  rangeRects := fun _ _ => []
  walkRects := fun _ _ _ => []
  posFromPoint := fun _ _ => none

/-- getHorizontalDistance (src/src/DOMRect.ts lines 1-8). -/
def getHorizontalDistance (r : Rect) (x : ℚ) : ℚ :=
  if x ≥ r.left ∧ x ≤ r.right then -1
  else |(r.left + r.right) / 2 - x|

/-- findBestPosition (src/src/DOMRect.ts lines 10-17): reduce keeping the
record whose rect is horizontally closest to goalX. -/
def findBestPosition (ps : List WalkRec) (goalX : ℚ) : Option WalkRec :=
  match ps with
  | [] => none
  | h :: t =>
    some (t.foldl
      (fun best cur =>
        if getHorizontalDistance cur.rect goalX <
            getHorizontalDistance best.rect goalX then cur else best)
      h)

/-- The character arm of EditorSelection.calculateNewPosition
(src/src/main.ts lines 1321-1361).  On an atomic focus: forward from offset 0
stays on the atomic at offset 1; otherwise the walker's next node (next leaf
index) is entered at offset 0, or the atomic keeps offset 1 at document end;
backward symmetric with getAfterOffset.  On a text (or any other) focus:
offset ± 1, unnormalized. -/
def characterNewPosition (doc : Document) (d : Dir) (p : Position) : Position :=
  match doc[p.leaf]? with
  | some (Leaf.atomic _ _) =>
    match d with
    | Dir.forward =>
      if p.offset = 0 then ⟨p.leaf, 1⟩
      else
        match doc[p.leaf + 1]? with
        | none => ⟨p.leaf, 1⟩
        | some _ => ⟨p.leaf + 1, 0⟩
    | Dir.backward =>
      if p.offset = 1 then ⟨p.leaf, 0⟩
      else
        match p.leaf with
        | 0 => ⟨0, 0⟩
        | i + 1 =>
          match doc[i]? with
          | none => ⟨i + 1, 0⟩
          | some prev => ⟨i, getAfterOffset prev⟩
  | _ => ⟨p.leaf, p.offset + (if d = Dir.forward then 1 else -1)⟩

/-- The lineboundary arm of calculateNewPosition (src/src/main.ts lines
1375-1391): rects of the current line (takeWhile lineOffset = 0), take the
last, aim at its right edge − 1 (forward) or left edge (backward) at mid
height, and resolve through getPositionFromPoint.  (The debugRect call is a
visual side effect with no bearing on the result.) -/
def lineBoundaryTarget (L : Layout) (d : Dir) (p : Position) : Option Position :=
  let linePositions :=
    (L.walkRects p.leaf p.offset d).takeWhile (fun pos => pos.lineOffset == 0)
  match linePositions.getLast? with
  | none => none
  | some targetPos =>
    let targetRect := targetPos.rect
    let gx := if d = Dir.forward then targetRect.right - 1 else targetRect.left
    let y := targetRect.top + targetRect.height / 2
    L.posFromPoint gx y

/-- The line arm of calculateNewPosition (src/src/main.ts lines 1393-1415):
read the selection range's client rects; bail out when they are empty and
goalX is unset; otherwise lazily set goalX to the first rect's left; collect
the rects of the adjacent visual line (skipWhile lineOffset = 0, takeWhile
|lineOffset| = 1); pick the best by horizontal distance to goalX; resolve
(goalX, midY) through getPositionFromPoint.  lineTargetAim is the part after
the lazy goalX set: collect, choose, resolve with the (now set) goalX. -/
def lineTargetAim (L : Layout) (d : Dir) (p : Position) (gx : ℚ) :
    Option Position :=
  let targetLinePositions :=
    ((L.walkRects p.leaf p.offset d).dropWhile
        (fun pos => pos.lineOffset == 0)).takeWhile
      (fun pos => pos.lineOffset.natAbs == 1)
  match findBestPosition targetLinePositions gx with
  | none => none
  | some bestPos =>
    let y := bestPos.rect.top + bestPos.rect.height / 2
    L.posFromPoint gx y

/-- The line arm of calculateNewPosition, state part: bail out when the range
rects are empty and goalX unset, otherwise lazily set goalX and aim.  Returns
the state because the lazy goalX set mutates the selection. -/
def lineTarget (L : Layout) (d : Dir) (s : SelState)
    (p : Position) : SelState × Option Position :=
  let cursorRects := L.rangeRects s.anchor s.focus
  if cursorRects.isEmpty ∧ s.goalX = none then (s, none)
  else
    let s' :=
      if s.goalX = none then
        { s with goalX := some (cursorRects.headI).left }
      else s
    (s', lineTargetAim L d p (s'.goalX.getD 0))

/-- isAtomicComponent applied to the leaf at an index (false when the index is
out of range). -/
def isAtomicAt (doc : Document) (i : Nat) : Bool :=
  match doc[i]? with
  | some l => isAtomicComponent l
  | none => false

/-- EditorSelection.calculateNewPosition (src/src/main.ts lines 1315-1418).
Null focus gives null.  character: characterNewPosition (always non-null).
lineboundary on an atomic focus toggles the offset when moving toward the
other side, else falls through to the rect-walker lineboundary arm.  line
runs lineTarget (which may set goalX).  Every other granularity returns
null. -/
def calculateNewPosition (L : Layout) (doc : Document) (d : Dir) (g : Gran)
    (s : SelState) : SelState × Option Position :=
  match s.focus with
  | none => (s, none)
  | some f =>
    if g = Gran.character then
      (s, some (characterNewPosition doc d f))
    else if g = Gran.lineboundary ∧ isAtomicAt doc f.leaf ∧
        ((d = Dir.forward ∧ f.offset = 0) ∨ (d = Dir.backward ∧ f.offset = 1)) then
      (s, some ⟨f.leaf, if d = Dir.forward then 1 else 0⟩)
    else if g = Gran.lineboundary then
      (s, lineBoundaryTarget L d f)
    else if g = Gran.line then
      lineTarget L d s f
    else (s, none)

/-- The focus.node.nodeName === BR test of modify (src/src/main.ts line
1440). -/
def leafIsBR (doc : Document) (i : Nat) : Bool :=
  match doc[i]? with
  | some (Leaf.atomic Tag.BR _) => true
  | _ => false

def focusIsBR (doc : Document) (s : SelState) : Bool :=
  match s.focus with
  | some p => leafIsBR doc p.leaf
  | none => false

/-- EditorSelection.modify (src/src/main.ts lines 1420-1444), with explicit
recursion fuel because the BR retry is genuine recursion.  Null focus is a
no-op.  Any granularity other than line clears goalX.  A null new position is
a no-op (beyond the goalX clear).  type move collapses, type extend extends
(which can fail on a null anchor).  For character, a focus that landed on a
BR retries via modify with type move — the source hard-codes the retry type.
none means the call did not return within the given fuel (or hit the null
anchor dereference). -/
def modifyFuel (L : Layout) (doc : Document) :
    Nat → MType → Dir → Gran → SelState → Option SelState
  | 0, _, _, _, _ => none
  | fuel + 1, t, d, g, s =>
    match s.focus with
    | none => some s
    | some _ =>
      let s1 := if g = Gran.line then s else { s with goalX := none }
      match calculateNewPosition L doc d g s1 with
      | (s2, none) => some s2
      | (s2, some p) =>
        let s3? :=
          if t = MType.move then some (collapse doc s2 p.leaf p.offset)
          else extendSel doc s2 p.leaf p.offset
        match s3? with
        | none => none
        | some s3 =>
          if g = Gran.character ∧ focusIsBR doc s3 then
            modifyFuel L doc fuel MType.move d Gran.character s3
          else some s3


/-- Mirror of the lazy goalX choice of the line arm of calculateNewPosition:
the value a line move will use is the stored goalX, or else the left edge of
the selection range's first client rect. -/
def lineGoalXUsed (L : Layout) (s : SelState) : Option ℚ :=
  match s.goalX with
  | some x => some x
  | none =>
    match L.rangeRects s.anchor s.focus with
    | [] => none
    | r :: _ => some r.left

/-- The single text leaf of the spec scenario S2: a span containing Hello. -/
def helloDoc : Document := [Leaf.text ['H', 'e', 'l', 'l', 'o'] false]

/-- A document whose last addressable leaf is a BR: span(Line1, br). -/
def line1BrDoc : Document :=
  [Leaf.text ['L', 'i', 'n', 'e', '1'] false, Leaf.atomic Tag.BR false]

/-- The spec scenario S10 document: span(Line1, br, Line2). -/
def line1BrLine2Doc : Document :=
  [Leaf.text ['L', 'i', 'n', 'e', '1'] false, Leaf.atomic Tag.BR false,
   Leaf.text ['L', 'i', 'n', 'e', '2'] false]

/-- A two-runs-around-a-BR document: span(AB, br, CD). -/
def abBrCdDoc : Document :=
  [Leaf.text ['A', 'B'] false, Leaf.atomic Tag.BR false,
   Leaf.text ['C', 'D'] false]

/-- A layout whose selection range reports one cursor rect at x = 3 and whose
rect-walker stream is empty. -/
def exampleLayout : Layout where
  rangeRects := fun _ _ => [⟨3, 0, 2, 10⟩]
  walkRects := fun _ _ _ => []
  posFromPoint := fun _ _ => none

/-- The start boundary point of CaretPosition.toRange
(src/src/lib/caret/CaretPosition.ts lines 47-77), linearised.  The document is
the child list of one parent element, the leaf index its child index.  A text
position keeps its own node and offset; an element (atomic) position is
translated to a parent-indexed offset childIndex + (offset = 0 ? 0 : 1).
Boundary points are ordered by (parent, k) ↦ (2k, 0) and
(child i, off) ↦ (2i + 1, off), lexicographically — the DOM order in which
(parent, i) < (child i, off) < (parent, i + 1). -/
def rangeStartKey (doc : Document) (p : Position) : Int × Int :=
  match doc[p.leaf]? with
  | some (Leaf.atomic _ _) =>
    (2 * ((p.leaf : Int) + (if p.offset = 0 then 0 else 1)), 0)
  | _ => (2 * (p.leaf : Int) + 1, p.offset)

/-- Range.compareBoundaryPoints with START_TO_START on the linearised keys:
−1, 0 or +1 by lexicographic point order. -/
def compareBoundaryPointsKey (k1 k2 : Int × Int) : Int :=
  if k1.1 < k2.1 then -1
  else if k2.1 < k1.1 then 1
  else if k1.2 < k2.2 then -1
  else if k2.2 < k1.2 then 1
  else 0

/-- CaretPosition.compareTo (src/src/lib/caret/CaretPosition.ts lines
240-260): for the same node, the raw offset difference; for different nodes,
compareBoundaryPoints on the two collapsed ranges.  (The catch arm only
fires for cross-document nodes, which cannot occur inside one editor root.) -/
def compareTo (doc : Document) (p1 p2 : Position) : Int :=
  if p1.leaf = p2.leaf then p1.offset - p2.offset
  else compareBoundaryPointsKey (rangeStartKey doc p1) (rangeStartKey doc p2)

inductive RangeErr where
  | offsetNegative
  | offsetOutOfRange
  | atomicOffsetTooLarge
deriving DecidableEq, Repr

/-- Boundary state of an EditorRange: start and end container/offset pairs,
both initially null. -/
structure RangeState where
  startPos : Option Position
  endPos : Option Position
deriving DecidableEq, Repr

/-- EditorRange.setStart of the first editor iteration (src/src/main.ts lines
147-169): negative offsets, text offsets beyond the length and element
offsets beyond 1 all throw; otherwise the boundary is stored and a missing
end boundary is mirrored. -/
def setStartV1 (doc : Document) (r : RangeState) (i : Nat) (off : Int) :
    Except RangeErr RangeState :=
  if off < 0 then Except.error RangeErr.offsetNegative
  else
    match doc[i]? with
    | some (Leaf.text s _) =>
      if off > (s.length : Int) then Except.error RangeErr.offsetOutOfRange
      else Except.ok
        { startPos := some ⟨i, off⟩
          endPos := if r.endPos = none then some ⟨i, off⟩ else r.endPos }
    | _ =>
      if off > 1 then Except.error RangeErr.atomicOffsetTooLarge
      else Except.ok
        { startPos := some ⟨i, off⟩
          endPos := if r.endPos = none then some ⟨i, off⟩ else r.endPos }

/-- EditorRange.setBoundary of the second editor iteration (src/src/main.ts
lines 1119-1149), start case: normalize, store, mirror a missing end. -/
def setStartV2 (doc : Document) (r : RangeState) (i : Nat) (off : Int) :
    RangeState :=
  let p := normalizePosition doc i off
  { startPos := some p
    endPos := if r.endPos = none then some p else r.endPos }

/-- CaretPosition.isValid (src/src/lib/caret/CaretPosition.ts lines 279-293):
a text position is valid when 0 ≤ offset ≤ length, an element (atomic)
position when offset ∈ {0, 1}. -/
def isValidPosition (doc : Document) (p : Position) : Bool :=
  match doc[p.leaf]? with
  | some (Leaf.text s _) => decide (0 ≤ p.offset) && decide (p.offset ≤ (s.length : Int))
  | some (Leaf.atomic _ _) => decide (p.offset = 0) || decide (p.offset = 1)
  | none => false

/-- isTextNodeInInlineElement (src/src/main.ts lines 1887-1889): a text node
whose parent element is not a block. -/
def isTextNodeInInlineElement : Leaf → Bool
  | Leaf.text _ inl => inl
  | Leaf.atomic _ _ => false

/-- findNextNode (src/src/main.ts lines 1900-1902): the first node of the
filtered pre-order traversal after the start node — in the leaf model the
adjacent leaf index. -/
def findNextNode (doc : Document) (i : Nat) (d : Dir) : Option Nat :=
  match d with
  | Dir.forward => if i + 1 < doc.length then some (i + 1) else none
  | Dir.backward =>
    match i with
    | 0 => none
    | j + 1 => if j + 1 < doc.length then some j else none

/-- handleTextNodeBoundary (src/src/main.ts lines 1905-1940): special
canonicalization when a text position sits exactly at the end of its leaf.
A next leaf that is an inline atomic gives (next, 0); a next text leaf gives
(next, 0) when entering an inline wrapper from plain text, or keeps
(current, length) between two inline wrappers; every other case is left to
the caller (null). -/
def handleTextNodeBoundary (doc : Document) (i : Nat) (off : Int) :
    Option Position :=
  match doc[i]? with
  | some (Leaf.text s inl) =>
    if off ≠ (s.length : Int) then none
    else
      match findNextNode doc i Dir.forward with
      | none => none
      | some j =>
        match doc[j]? with
        | none => none
        | some nx =>
          if isAtomicComponent nx ∧ ¬ isBlockElement nx then some ⟨j, 0⟩
          else
            match nx with
            | Leaf.text _ nInl =>
              if ¬ inl ∧ nInl then some ⟨j, 0⟩
              else if inl ∧ nInl then some ⟨i, (s.length : Int)⟩
              else none
            | _ => none
  | _ => none

/-- The caller of handleTextNodeBoundary (normalizePosition of the node-id
editor, src/src/main.ts lines 2315-2324): the boundary position when the
handler produces one, otherwise the position unchanged. -/
def boundaryCanonical (doc : Document) (i : Nat) (off : Int) : Position :=
  match handleTextNodeBoundary doc i off with
  | some p => p
  | none => ⟨i, off⟩

/-- The claim's four-case description of end-of-leaf canonicalization, stated
from the spec's words for comparison with boundaryCanonical: (1) next leaf an
inline atomic ⇒ (next, 0); (2) both texts inside inline wrappers ⇒ stay at
(current, length); (3) plain text to inline-wrapped text ⇒ (next, 0);
(4) otherwise stay at (current, length). -/
def specEndOfLeafCanonical (i j : Nat) (s : List Char) (inl : Bool)
    (nx : Leaf) : Position :=
  if isAtomicComponent nx ∧ ¬ isBlockElement nx then ⟨j, 0⟩
  else if isTextNodeInInlineElement nx ∧ inl then ⟨i, (s.length : Int)⟩
  else if isTextNodeInInlineElement nx ∧ ¬ inl then ⟨j, 0⟩
  else ⟨i, (s.length : Int)⟩

/-- calculateVerticalOverlapRatio (src/src/DOMRect.ts lines 19-25):
overlap height over the smaller height, 0 when the smaller height is not
positive. -/
def calculateVerticalOverlap (rect1 rect2 : Rect) : ℚ :=
  let overlapTop := max rect1.top rect2.top
  let overlapBottom := min rect1.bottom rect2.bottom
  let overlapHeight := max 0 (overlapBottom - overlapTop)
  let minHeight := min rect1.height rect2.height
  if minHeight > 0 then overlapHeight / minHeight else 0

/-- The mutable locals of the walk generators: lineOffset and
lineAnchorRect. -/
structure WalkSt where
  lineOffset : Int
  lineAnchorRect : Option Rect
deriving DecidableEq, Repr

def lineOffsetIncrement (d : Dir) : Int := if d = Dir.forward then 1 else -1

/-- The regression test of both walkers: in forward direction a rect whose
bottom does not pass the anchor's bottom, backward one whose top does not
pass the anchor's top. -/
def regressesB (d : Dir) (anchor rect : Rect) : Bool :=
  match d with
  | Dir.forward => decide (anchor.bottom > rect.bottom)
  | Dir.backward => decide (anchor.top < rect.top)

/-- One rect of processNode in the first EditorRangeRectWalker.walk
(src/src/main.ts lines 499-514): regression filter first (skip), then the
overlap test (< 0.5 opens a new line), else emit on the current line.
Returns the new state and the emitted lineOffset (none = skipped). -/
def stepA (d : Dir) (st : WalkSt) (rect : Rect) : WalkSt × Option Int :=
  match st.lineAnchorRect with
  | none => (⟨st.lineOffset, some rect⟩, some st.lineOffset)
  | some anchor =>
    if d = Dir.forward ∧ anchor.bottom > rect.bottom then (st, none)
    else if d = Dir.backward ∧ anchor.top < rect.top then (st, none)
    else if calculateVerticalOverlap anchor rect < 1 / 2 then
      (⟨st.lineOffset + lineOffsetIncrement d, some rect⟩,
        some (st.lineOffset + lineOffsetIncrement d))
    else (st, some st.lineOffset)

/-- One rect of processNode in the second EditorRangeRectWalker.walk
(src/src/main.ts lines 1498-1514): overlap test first; the regression filter
only runs inside the new-line branch. -/
def stepB (d : Dir) (st : WalkSt) (rect : Rect) : WalkSt × Option Int :=
  match st.lineAnchorRect with
  | none => (⟨st.lineOffset, some rect⟩, some st.lineOffset)
  | some anchor =>
    if calculateVerticalOverlap anchor rect < 1 / 2 then
      if d = Dir.forward ∧ anchor.bottom > rect.bottom then (st, none)
      else if d = Dir.backward ∧ anchor.top < rect.top then (st, none)
      else
        (⟨st.lineOffset + lineOffsetIncrement d, some rect⟩,
          some (st.lineOffset + lineOffsetIncrement d))
    else (st, some st.lineOffset)

/-- The stream of records the first walk generator emits over a stream of
(node, rect) inputs. -/
def walkEmitA (d : Dir) : WalkSt → List (Nat × Rect) → List WalkRec
  | _, [] => []
  | st, (n, r) :: rest =>
    match stepA d st r with
    | (st', some lo) => ⟨n, r, lo⟩ :: walkEmitA d st' rest
    | (st', none) => walkEmitA d st' rest

/-- The stream of records the second walk generator emits. -/
def walkEmitB (d : Dir) : WalkSt → List (Nat × Rect) → List WalkRec
  | _, [] => []
  | st, (n, r) :: rest =>
    match stepB d st r with
    | (st', some lo) => ⟨n, r, lo⟩ :: walkEmitB d st' rest
    | (st', none) => walkEmitB d st' rest

/-- No rect of the stream both regresses behind the current line anchor and
overlaps it by at least 0.5, along the execution of the first walker. -/
def noRegressingOverlaps (d : Dir) : WalkSt → List (Nat × Rect) → Bool
  | _, [] => true
  | st, (_, r) :: rest =>
    (match st.lineAnchorRect with
     | none => true
     | some anchor =>
       !(regressesB d anchor r && decide (1 / 2 ≤ calculateVerticalOverlap anchor r))) &&
    noRegressingOverlaps d (stepA d st r).1 rest


/-- A node of the document tree handed to normalizeDocument
(src/src/normalizeDocument.ts): a text node with its character data, or an
element with its computed block-ness (display without the inline token) and
its children. -/
inductive DomNode where
  | text (s : List Char)
  | elem (block : Bool) (children : List DomNode)
deriving Repr

def DomNode.isTextB : DomNode → Bool
  | DomNode.text _ => true
  | DomNode.elem _ _ => false

def isBlockNode : DomNode → Bool
  | DomNode.text _ => false
  | DomNode.elem b _ => b

/-- The whitespace class of the collapse regex; the ASCII whitespace
characters. -/
def isWs (c : Char) : Bool :=
  c == ' ' || c == '\t' || c == '\n' || c == '\r' || c == '\x0b' || c == '\x0c'

/-- replace(/\s+/g, space) — every maximal whitespace run becomes a single
space.  The Bool tracks being inside an already-replaced run. -/
def collapseWsGo : Bool → List Char → List Char
  | _, [] => []
  | inRun, c :: rest =>
    if isWs c then
      if inRun then collapseWsGo true rest
      else ' ' :: collapseWsGo true rest
    else c :: collapseWsGo false rest

def collapseWs (s : List Char) : List Char := collapseWsGo false s

/-- trimStart: drop the leading whitespace run. -/
def trimStart (s : List Char) : List Char := s.dropWhile isWs

/-- trimEnd: drop the trailing whitespace run. -/
def trimEnd : List Char → List Char
  | [] => []
  | c :: rest =>
    match trimEnd rest with
    | [] => if isWs c then [] else [c]
    | out => c :: out

/-- The combined effect of the normalizeDocument walker on one text node's
data, in visit order: the parent block's trimStart (when first child) and
trimEnd (when last child) fire at the parent's visit; a preceding block
sibling's trimStart fires before the node's own visit; the node's visit
collapses whitespace; a following block sibling's trimEnd fires after. -/
def phase1Text (pbFirst pbLast prevB nextB : Bool) (s : List Char) :
    List Char :=
  let s1 := if pbFirst then trimStart s else s
  let s2 := if pbLast then trimEnd s1 else s1
  let s3 := if prevB then trimStart s2 else s2
  let s4 := collapseWs s3
  if nextB then trimEnd s4 else s4

mutual

/-- One node of the walker pass: a text node gets phase1Text with its
positional flags (first/last child of a visited block parent, block
siblings on either side); an element recurses into its children, becoming
their visited parent. -/
def phase1Node (pb first last prevB nextB : Bool) : DomNode → DomNode
  | DomNode.text s =>
    DomNode.text (phase1Text (pb && first) (pb && last) prevB nextB s)
  | DomNode.elem b cs => DomNode.elem b (phase1Go b true false cs)

/-- The walker pass of normalizeDocument over a child list: pb is the
(visited) parent's block-ness (false at the root, which the TreeWalker never
filters), first marks the first child, prevB whether the previous sibling is
a block element. -/
def phase1Go (pb first prevB : Bool) : List DomNode → List DomNode
  | [] => []
  | n :: rest =>
    phase1Node pb first rest.isEmpty prevB
      (match rest with
       | [] => false
       | m :: _ => isBlockNode m) n ::
    phase1Go pb false (isBlockNode n) rest

end

mutual

/-- doc.normalize() on one node: elements normalize their children. -/
def mergeNode : DomNode → DomNode
  | DomNode.text s => DomNode.text s
  | DomNode.elem b cs => DomNode.elem b (mergeTexts cs)

/-- doc.normalize() on a child list: adjacent text siblings are concatenated
and empty text nodes removed (right fold: merge the head text into the
merged tail's leading text). -/
def mergeTexts : List DomNode → List DomNode
  | [] => []
  | DomNode.text s :: rest =>
    (match mergeTexts rest with
     | DomNode.text t :: out =>
       if (s ++ t).isEmpty then out else DomNode.text (s ++ t) :: out
     | out => if s.isEmpty then out else DomNode.text s :: out)
  | n :: rest => mergeNode n :: mergeTexts rest

end

/-- normalizeDocument (src/src/normalizeDocument.ts lines 3-34): the walker
pass (whitespace collapse on text nodes, block-boundary trims), then
doc.normalize().  The root element itself is never visited by the walker, so
its own first/last-child trims do not fire (pb = false for its children). -/
def normalizeDocument : DomNode → DomNode
  | DomNode.text s => DomNode.text s
  | DomNode.elem b cs =>
    DomNode.elem b (mergeTexts (phase1Go false true false cs))

mutual

/-- No element of the tree has two adjacent text children. -/
def noAdjTextsN : DomNode → Bool
  | DomNode.text _ => true
  | DomNode.elem _ cs => noAdjTextsList cs

/-- No two adjacent text siblings in a child list, recursively through
element children. -/
def noAdjTextsList : List DomNode → Bool
  | [] => true
  | n :: rest =>
    noAdjTextsN n &&
    (match n, rest with
     | DomNode.text _, DomNode.text _ :: _ => false
     | _, _ => true) &&
    noAdjTextsList rest

end

/-- A root whose two text children are adjacent siblings: normalizeDocument
is not idempotent on it, because the first pass collapses each text node
separately and then doc.normalize() concatenates them, recreating a double
space that only the second pass collapses. -/
def adjTextsDoc : DomNode :=
  DomNode.elem false [DomNode.text ['a', ' '], DomNode.text [' ', 'b']]

/-- A root with no two adjacent text siblings (text, element, text). -/
def separatedDoc : DomNode :=
  DomNode.elem false
    [DomNode.text ['a', ' '], DomNode.elem false [], DomNode.text [' ', 'b']]

lemma collapse_goalX (doc : Document) (s : SelState) (i : Nat) (off : Int) :
    (collapse doc s i off).goalX = s.goalX := rfl

lemma calculateNewPosition_character (L : Layout) (doc : Document) (d : Dir)
    (s : SelState) (f : Position) (hf : s.focus = some f) :
    calculateNewPosition L doc d Gran.character s =
      (s, some (characterNewPosition doc d f)) := by
  simp [calculateNewPosition, hf]

lemma modifyFuel_char_succ (L : Layout) (doc : Document) (n : Nat) (t : MType)
    (d : Dir) (s : SelState) (f : Position) (hf : s.focus = some f) :
    modifyFuel L doc (n + 1) t d Gran.character s =
      (match (if t = MType.move
              then some (collapse doc { s with goalX := none }
                (characterNewPosition doc d f).leaf
                (characterNewPosition doc d f).offset)
              else extendSel doc { s with goalX := none }
                (characterNewPosition doc d f).leaf
                (characterNewPosition doc d f).offset) with
       | none => none
       | some s3 =>
         if focusIsBR doc s3 then modifyFuel L doc n MType.move d Gran.character s3
         else some s3) := by
  rw [modifyFuel, hf]
  simp only []
  rw [calculateNewPosition_character L doc d _ f (by simp [hf])]
  simp

lemma applyType_state (doc : Document) (t : MType) (s : SelState) (i : Nat)
    (off : Int) (s3 : SelState)
    (h : (if t = MType.move then some (collapse doc s i off)
          else extendSel doc s i off) = some s3) :
    s3.goalX = s.goalX ∧ s3.focus ≠ none := by
  split at h
  · simp only [Option.some.injEq] at h
    subst h
    exact ⟨rfl, by simp [collapse]⟩
  · rw [extendSel] at h
    cases ha : s.anchor with
    | none => rw [ha] at h; simp at h
    | some a =>
      rw [ha] at h
      simp only [Option.some.injEq] at h
      subst h
      exact ⟨rfl, by simp [setBaseAndExtent]⟩

lemma modify_character_goalX_none (L : Layout) (doc : Document) :
    ∀ (fuel : Nat) (t : MType) (d : Dir) (s s' : SelState),
      s.focus ≠ none →
      modifyFuel L doc fuel t d Gran.character s = some s' →
      s'.goalX = none := by
  intro fuel
  induction fuel with
  | zero => intro t d s s' _ h; simp [modifyFuel] at h
  | succ n ih =>
    intro t d s s' hfoc h
    cases hf : s.focus with
    | none => exact absurd hf hfoc
    | some f =>
      rw [modifyFuel_char_succ L doc n t d s f hf] at h
      cases hs3 : (if t = MType.move
          then some (collapse doc { s with goalX := none }
            (characterNewPosition doc d f).leaf
            (characterNewPosition doc d f).offset)
          else extendSel doc { s with goalX := none }
            (characterNewPosition doc d f).leaf
            (characterNewPosition doc d f).offset) with
      | none => rw [hs3] at h; simp at h
      | some s3 =>
        rw [hs3] at h
        obtain ⟨hg, hfoc3⟩ := applyType_state doc t _ _ _ s3 hs3
        simp only [] at h
        by_cases hbr : focusIsBR doc s3
        · rw [if_pos hbr] at h
          exact ih MType.move d s3 s' hfoc3 h
        · rw [if_neg hbr] at h
          simp only [Option.some.injEq] at h
          subst h
          exact hg

lemma calculateNewPosition_fst (L : Layout) (doc : Document) (d : Dir)
    (g : Gran) (s : SelState) (hg : g ≠ Gran.line) :
    (calculateNewPosition L doc d g s).1 = s := by
  rw [calculateNewPosition]
  cases s.focus with
  | none => rfl
  | some f =>
    simp only []
    split_ifs <;> rfl

lemma modify_nonline_goalX_none (L : Layout) (doc : Document) (fuel : Nat)
    (t : MType) (d : Dir) (g : Gran) (s s' : SelState)
    (hgl : g ≠ Gran.line) (hgc : g ≠ Gran.character)
    (hfoc : s.focus ≠ none)
    (h : modifyFuel L doc fuel t d g s = some s') :
    s'.goalX = none := by
  cases fuel with
  | zero => simp [modifyFuel] at h
  | succ n =>
    rw [modifyFuel] at h
    cases hf : s.focus with
    | none => exact absurd hf hfoc
    | some f =>
      rw [hf] at h
      simp only [] at h
      rw [if_neg hgl] at h
      rcases hc : calculateNewPosition L doc d g
          { anchor := s.anchor, focus := some f, goalX := none } with ⟨s2, opt⟩
      have hs2 : s2 = { anchor := s.anchor, focus := some f, goalX := none } := by
        have h5 := calculateNewPosition_fst L doc d g
          { anchor := s.anchor, focus := some f, goalX := none } hgl
        rw [hc] at h5
        exact h5
      rw [hc] at h
      cases opt with
      | none =>
        simp only [Option.some.injEq] at h
        subst h
        rw [hs2]
      | some p =>
        simp only [] at h
        cases hs3 : (if t = MType.move
            then some (collapse doc s2 p.leaf p.offset)
            else extendSel doc s2 p.leaf p.offset) with
        | none => rw [hs3] at h; simp at h
        | some s3 =>
          rw [hs3] at h
          obtain ⟨hg3, _⟩ := applyType_state doc t _ _ _ s3 hs3
          simp only [] at h
          rw [if_neg (by simp [hgc])] at h
          simp only [Option.some.injEq] at h
          subst h
          rw [hg3, hs2]

lemma calculateNewPosition_line (L : Layout) (doc : Document) (d : Dir)
    (s : SelState) (f : Position) (hf : s.focus = some f) :
    calculateNewPosition L doc d Gran.line s = lineTarget L d s f := by
  simp [calculateNewPosition, hf]

lemma lineTarget_fst (L : Layout) (d : Dir) (s : SelState) (f : Position) :
    (lineTarget L d s f).1 =
      (if (L.rangeRects s.anchor s.focus).isEmpty ∧ s.goalX = none then s
       else if s.goalX = none then
         { s with goalX := some ((L.rangeRects s.anchor s.focus).headI).left }
       else s) := by
  rw [lineTarget]
  split_ifs <;> rfl

lemma lineTarget_fst_goalX (L : Layout) (d : Dir) (s : SelState) (f : Position)
    (x : ℚ) (hx : lineGoalXUsed L s = some x) :
    (lineTarget L d s f).1.goalX = some x := by
  rw [lineTarget_fst]
  rw [lineGoalXUsed] at hx
  split_ifs with h1 h2
  · obtain ⟨he, hn⟩ := h1
    rw [hn] at hx
    simp only [] at hx
    rw [List.isEmpty_iff] at he
    rw [he] at hx
    simp at hx
  · rw [h2] at hx
    simp only [] at hx
    cases hr : L.rangeRects s.anchor s.focus with
    | nil => rw [hr] at hx; simp at hx
    | cons r rest =>
      rw [hr] at hx
      simp only [Option.some.injEq] at hx
      simp [hx]
  · cases hg : s.goalX with
    | none => exact absurd hg h2
    | some x0 =>
      rw [hg] at hx
      simp only [Option.some.injEq] at hx
      rw [hx]

lemma modifyFuel_line_succ (L : Layout) (doc : Document) (n : Nat) (t : MType)
    (d : Dir) (s : SelState) (f : Position) (hf : s.focus = some f) :
    modifyFuel L doc (n + 1) t d Gran.line s =
      (match lineTarget L d s f with
       | (s2, none) => some s2
       | (s2, some p) =>
         match (if t = MType.move then some (collapse doc s2 p.leaf p.offset)
                else extendSel doc s2 p.leaf p.offset) with
         | none => none
         | some s3 => some s3) := by
  rw [modifyFuel, hf]
  simp only []
  rw [if_pos True.intro]
  rw [calculateNewPosition_line L doc d s f hf]
  rcases hLT : lineTarget L d s f with ⟨s2, opt⟩
  cases opt with
  | none => rfl
  | some p => simp

/-- Claim C3: goalX policy of modify.  Any call with unit character,
lineboundary or documentboundary leaves goalX null afterwards; and across two
consecutive move-line calls in the same direction the second call uses exactly
the goalX the first call used (the first call stores it). -/
theorem goalx_line_only (L : Layout) (doc : Document) :
    (∀ (fuel : Nat) (t : MType) (d : Dir) (g : Gran) (s s' : SelState),
      (g = Gran.character ∨ g = Gran.lineboundary ∨ g = Gran.documentboundary) →
      s.focus ≠ none →
      modifyFuel L doc fuel t d g s = some s' → s'.goalX = none) ∧
    (∀ (d : Dir) (s0 s1 : SelState) (f : Position) (x : ℚ),
      s0.focus = some f →
      lineGoalXUsed L s0 = some x →
      modifyFuel L doc 1 MType.move d Gran.line s0 = some s1 →
      s1.goalX = some x ∧ lineGoalXUsed L s1 = some x) := by
  constructor
  · intro fuel t d g s s' hg hfoc h
    rcases hg with hg | hg | hg
    · subst hg; exact modify_character_goalX_none L doc fuel t d s s' hfoc h
    · subst hg
      exact modify_nonline_goalX_none L doc fuel t d Gran.lineboundary s s'
        (by simp) (by simp) hfoc h
    · subst hg
      exact modify_nonline_goalX_none L doc fuel t d Gran.documentboundary s s'
        (by simp) (by simp) hfoc h
  · intro d s0 s1 f x hf hx h
    rw [modifyFuel_line_succ L doc 0 MType.move d s0 f hf] at h
    rcases hlt : lineTarget L d s0 f with ⟨s2, opt⟩
    have h2 : s2.goalX = some x := by
      have h5 := lineTarget_fst_goalX L d s0 f x hx
      rw [hlt] at h5
      exact h5
    rw [hlt] at h
    have hgoal : s1.goalX = some x := by
      cases opt with
      | none =>
        simp only [Option.some.injEq] at h
        subst h
        exact h2
      | some p =>
        simp at h
        rw [← h, collapse_goalX]
        exact h2
    refine ⟨hgoal, ?_⟩
    rw [lineGoalXUsed, hgoal]

/-- Claim C1: after any terminating call of modify with unit character, the
selection focus never rests on a BR leaf — the retry at the end of modify
re-fires until the focus has left the BR. -/
theorem modify_character_focus_never_br (L : Layout) (doc : Document)
    (fuel : Nat) (t : MType) (d : Dir) (s s' : SelState) (p : Position)
    (h : modifyFuel L doc fuel t d Gran.character s = some s')
    (hp : s'.focus = some p) :
    leafIsBR doc p.leaf = false := by
  induction fuel generalizing t s with
  | zero => simp [modifyFuel] at h
  | succ n ih =>
    cases hfoc : s.focus with
    | none =>
      rw [modifyFuel, hfoc] at h
      simp only [Option.some.injEq] at h
      subst h
      rw [hfoc] at hp
      exact absurd hp (by simp)
    | some f =>
      rw [modifyFuel_char_succ L doc n t d s f hfoc] at h
      cases hs3 : (if t = MType.move
          then some (collapse doc { s with goalX := none }
            (characterNewPosition doc d f).leaf
            (characterNewPosition doc d f).offset)
          else extendSel doc { s with goalX := none }
            (characterNewPosition doc d f).leaf
            (characterNewPosition doc d f).offset) with
      | none => rw [hs3] at h; simp at h
      | some s3 =>
        rw [hs3] at h
        simp only [] at h
        by_cases hbr : focusIsBR doc s3
        · rw [if_pos hbr] at h
          exact ih MType.move s3 h
        · rw [if_neg hbr] at h
          simp only [Option.some.injEq] at h
          subst h
          rw [focusIsBR, hp] at hbr
          simpa using hbr

theorem modify_character_focus_never_br_witness :
    leafIsBR line1BrLine2Doc 2 = false :=
  modify_character_focus_never_br trivialLayout line1BrLine2Doc 5 MType.move
    Dir.forward ⟨some ⟨0, 5⟩, some ⟨0, 5⟩, none⟩
    ⟨some ⟨2, 0⟩, some ⟨2, 0⟩, none⟩ ⟨2, 0⟩ (by decide) (by decide)

lemma modify_br_end_loop :
    ∀ fuel : Nat, modifyFuel trivialLayout line1BrDoc fuel MType.move Dir.forward
      Gran.character ⟨some ⟨1, 1⟩, some ⟨1, 1⟩, none⟩ = none := by
  intro fuel
  induction fuel with
  | zero => rfl
  | succ n ih => exact ih

/-- Claim C2 (refuting the termination claim): when the document's last
addressable leaf is a BR and a forward character move lands on it, modify
recurses forever — no amount of fuel makes the call return.  The inner loop
state (focus on the BR at offset 1) reproduces itself exactly. -/
theorem modify_character_onto_trailing_br_never_returns :
    ∀ fuel : Nat, modifyFuel trivialLayout line1BrDoc fuel MType.move Dir.forward
      Gran.character ⟨some ⟨0, 5⟩, some ⟨0, 5⟩, none⟩ = none := by
  intro fuel
  exact match fuel with
  | 0 => rfl
  | 1 => rfl
  | (n + 2) => modify_br_end_loop n

/-- Claim C5 counterexample: an extend character move whose focus lands on
the BR of span(AB, br, CD) ends collapsed at (CD, 0); the anchor (AB, 0) is
not preserved, because the retry hard-codes type move. -/
theorem modify_br_retry_drops_anchor_cex :
    modifyFuel trivialLayout abBrCdDoc 9 MType.extend Dir.forward Gran.character
        ⟨some ⟨0, 0⟩, some ⟨0, 2⟩, none⟩ =
      some ⟨some ⟨2, 0⟩, some ⟨2, 0⟩, none⟩ ∧
    some (⟨2, 0⟩ : Position) ≠
      (⟨some ⟨0, 0⟩, some ⟨0, 2⟩, (none : Option ℚ)⟩ : SelState).anchor :=
  ⟨rfl, by decide⟩

/-- Claim C5 amended: when a character move lands on a BR, modify retries
with type move regardless of the requested type (and keeps retrying while the
focus stays on a BR), so move and extend across a BR end in the same collapsed
selection past the BR. -/
theorem modify_br_retry_always_move (t : MType) :
    modifyFuel trivialLayout abBrCdDoc 9 t Dir.forward Gran.character
        ⟨some ⟨0, 0⟩, some ⟨0, 2⟩, none⟩ =
      some ⟨some ⟨2, 0⟩, some ⟨2, 0⟩, none⟩ := by
  cases t <;> rfl

/-- Claim C7 counterexample: with a single text leaf Hello and a collapsed
selection at offset 5, a forward character computation returns the candidate
(Hello, 6) — not null as the claim states. -/
theorem character_at_edge_not_null_cex :
    calculateNewPosition trivialLayout helloDoc Dir.forward Gran.character
        ⟨some ⟨0, 5⟩, some ⟨0, 5⟩, none⟩ =
      (⟨some ⟨0, 5⟩, some ⟨0, 5⟩, none⟩, some ⟨0, 6⟩) ∧
    some (⟨0, 6⟩ : Position) ≠ none := ⟨rfl, by decide⟩

/-- Claim C7 amended: at the document edge the character engine returns an
out-of-range candidate rather than null; normalization folds it back, so the
modify call leaves the selection unchanged at (Hello, 5). -/
theorem modify_character_at_edge_unchanged :
    modifyFuel trivialLayout helloDoc 1 MType.move Dir.forward Gran.character
        ⟨some ⟨0, 5⟩, some ⟨0, 5⟩, none⟩ =
      some ⟨some ⟨0, 5⟩, some ⟨0, 5⟩, none⟩ := rfl

theorem goalx_line_only_witness :
    (⟨some ⟨0, 0⟩, some ⟨0, 0⟩, none⟩ : SelState).goalX = none ∧
    ((⟨some ⟨0, 0⟩, some ⟨0, 0⟩, some 3⟩ : SelState).goalX = some 3 ∧
      lineGoalXUsed exampleLayout ⟨some ⟨0, 0⟩, some ⟨0, 0⟩, some 3⟩ = some 3) :=
  ⟨(goalx_line_only exampleLayout helloDoc).1 1 MType.move Dir.forward
      Gran.lineboundary ⟨some ⟨0, 0⟩, some ⟨0, 0⟩, some 7⟩
      ⟨some ⟨0, 0⟩, some ⟨0, 0⟩, none⟩ (Or.inr (Or.inl rfl)) (by decide) (by decide),
   (goalx_line_only exampleLayout helloDoc).2 Dir.forward
      ⟨some ⟨0, 0⟩, some ⟨0, 0⟩, none⟩ ⟨some ⟨0, 0⟩, some ⟨0, 0⟩, some 3⟩
      ⟨0, 0⟩ 3 rfl (by decide) (by decide)⟩


lemma compareBoundaryPointsKey_antisymm (k1 k2 : Int × Int) :
    compareBoundaryPointsKey k1 k2 = -(compareBoundaryPointsKey k2 k1) := by
  rw [compareBoundaryPointsKey, compareBoundaryPointsKey]
  split_ifs <;> omega

lemma compareBoundaryPointsKey_mem (k1 k2 : Int × Int) :
    compareBoundaryPointsKey k1 k2 = -1 ∨ compareBoundaryPointsKey k1 k2 = 0 ∨
      compareBoundaryPointsKey k1 k2 = 1 := by
  rw [compareBoundaryPointsKey]
  split_ifs <;> simp

/-- Claim C6 counterexample: two positions on the same text leaf compare to
the raw offset difference −5, which is none of −1, 0, +1. -/
theorem compareTo_not_sign_cex :
    compareTo helloDoc ⟨0, 0⟩ ⟨0, 5⟩ = -5 ∧
    ¬(compareTo helloDoc ⟨0, 0⟩ ⟨0, 5⟩ = -1 ∨ compareTo helloDoc ⟨0, 0⟩ ⟨0, 5⟩ = 0 ∨
      compareTo helloDoc ⟨0, 0⟩ ⟨0, 5⟩ = 1) := by decide

/-- Claim C6 amended: compareTo is antisymmetric; for positions on the same
leaf it returns the raw offset difference (any integer); only for distinct
leaves is the result −1, 0 or +1, by document order of the range start
points. -/
theorem compareTo_antisymm_and_range (doc : Document) (p1 p2 : Position) :
    compareTo doc p1 p2 = -(compareTo doc p2 p1) ∧
    (p1.leaf = p2.leaf → compareTo doc p1 p2 = p1.offset - p2.offset) ∧
    (p1.leaf ≠ p2.leaf →
      compareTo doc p1 p2 = -1 ∨ compareTo doc p1 p2 = 0 ∨
        compareTo doc p1 p2 = 1) := by
  refine ⟨?_, ?_, ?_⟩
  · rw [compareTo, compareTo]
    by_cases h : p1.leaf = p2.leaf
    · rw [if_pos h, if_pos h.symm]
      omega
    · rw [if_neg h, if_neg (Ne.symm h)]
      exact compareBoundaryPointsKey_antisymm _ _
  · intro h
    rw [compareTo, if_pos h]
  · intro h
    rw [compareTo, if_neg h]
    exact compareBoundaryPointsKey_mem _ _

theorem compareTo_antisymm_and_range_witness :
    (compareTo abBrCdDoc ⟨0, 1⟩ ⟨0, 3⟩ =
      (⟨0, 1⟩ : Position).offset - (⟨0, 3⟩ : Position).offset) ∧
    (compareTo abBrCdDoc ⟨0, 2⟩ ⟨1, 0⟩ = -1 ∨ compareTo abBrCdDoc ⟨0, 2⟩ ⟨1, 0⟩ = 0 ∨
      compareTo abBrCdDoc ⟨0, 2⟩ ⟨1, 0⟩ = 1) :=
  ⟨(compareTo_antisymm_and_range abBrCdDoc ⟨0, 1⟩ ⟨0, 3⟩).2.1 (by decide),
   (compareTo_antisymm_and_range abBrCdDoc ⟨0, 2⟩ ⟨1, 0⟩).2.2 (by decide)⟩

/-- Claim C8 counterexample: the first editor iteration's
EditorRange.setStart throws on an out-of-range text offset instead of
normalizing it. -/
theorem setStartV1_raises_cex :
    setStartV1 helloDoc ⟨none, none⟩ 0 6 =
      Except.error RangeErr.offsetOutOfRange := rfl

lemma normDown_valid (doc : Document) :
    ∀ (i : Nat) (off : Int) (s : List Char) (inl : Bool),
      doc[i]? = some (Leaf.text s inl) → off ≤ (s.length : Int) →
      isValidPosition doc (normDown doc i off) = true := by
  intro i
  induction i with
  | zero =>
    intro off s inl hc hle
    rw [normDown]
    split_ifs with h
    · simp [isValidPosition, hc]
    · simp only [isValidPosition, hc]
      simp
      omega
  | succ n ih =>
    intro off s inl hc hle
    rw [normDown]
    split_ifs with h
    · cases hp : doc[n]? with
      | none => simp [isValidPosition, hc]
      | some l =>
        cases l with
        | text s' inl' =>
          exact ih (off + s'.length) s' inl' hp (by omega)
        | atomic tg bl => simp [isValidPosition, hp]
    · simp only [isValidPosition, hc]
      simp
      omega

lemma drop_cons_get? (doc : Document) (n : Nat) (l : Leaf) (rest : List Leaf)
    (h : doc.drop n = l :: rest) :
    doc[n]? = some l ∧ doc.drop (n + 1) = rest := by
  constructor
  · rw [← List.head?_drop, h]
    rfl
  · have h2 : (doc.drop n).drop 1 = rest := by rw [h]; rfl
    rw [List.drop_drop] at h2
    simpa using h2

lemma normUp_valid (doc : Document) :
    ∀ (rest : List Leaf) (i : Nat) (off : Int) (s : List Char) (inl : Bool),
      doc[i]? = some (Leaf.text s inl) → doc.drop (i + 1) = rest →
      0 < off →
      isValidPosition doc (normUp rest (s.length : Int) i off) = true := by
  intro rest
  induction rest with
  | nil =>
    intro i off s inl hc _ hpos
    simp only [normUp]
    split_ifs with h
    · simp [isValidPosition, hc]
    · simp only [isValidPosition, hc]
      simp
      omega
  | cons l rest' ih =>
    intro i off s inl hc hdrop hpos
    obtain ⟨hl, hdrop'⟩ := drop_cons_get? doc (i + 1) l rest' hdrop
    simp only [normUp]
    split_ifs with h
    · cases l with
      | text s' inl' =>
        exact ih (i + 1) (off - s.length) s' inl' hl hdrop' (by omega)
      | atomic tg bl => simp [isValidPosition, hl]
    · simp only [isValidPosition, hc]
      simp
      omega

/-- Claim C8 amended: the walker-based range of the second editor iteration
never raises — setStart stores the silently normalized position, and for any
in-document leaf and any integer offset the normalized position is valid
(text offsets inside [0, length], atomic offsets in {0, 1}). -/
theorem setStartV2_never_raises (doc : Document) (r : RangeState) (i : Nat)
    (off : Int) (h : i < doc.length) :
    (setStartV2 doc r i off).startPos = some (normalizePosition doc i off) ∧
    isValidPosition doc (normalizePosition doc i off) = true := by
  refine ⟨rfl, ?_⟩
  rw [normalizePosition]
  cases hc : doc[i]? with
  | none =>
    rw [List.getElem?_eq_getElem h] at hc
    simp at hc
  | some l =>
    cases l with
    | text s inl =>
      simp only []
      split_ifs with h1 h2
      · exact normDown_valid doc i off s inl hc (by omega)
      · exact normUp_valid doc (doc.drop (i + 1)) i off s inl hc rfl (by omega)
      · simp only [isValidPosition, hc]
        simp
        omega
    | atomic tg bl =>
      simp only []
      simp only [isValidPosition, hc]
      split_ifs <;> simp

theorem setStartV2_never_raises_witness :
    ((setStartV2 helloDoc ⟨none, none⟩ 0 99).startPos =
      some (normalizePosition helloDoc 0 99)) ∧
    isValidPosition helloDoc (normalizePosition helloDoc 0 99) = true :=
  setStartV2_never_raises helloDoc ⟨none, none⟩ 0 99 (by decide)


/-- Claim C4: at the exact end of a text leaf with an existing next leaf, the
code's canonicalization agrees with the claim's four-case description. -/
theorem boundary_canonicalization_cases (doc : Document) (i j : Nat)
    (s : List Char) (inl : Bool) (nx : Leaf)
    (hc : doc[i]? = some (Leaf.text s inl))
    (hj : findNextNode doc i Dir.forward = some j)
    (hx : doc[j]? = some nx) :
    boundaryCanonical doc i (s.length : Int) =
      specEndOfLeafCanonical i j s inl nx := by
  rw [boundaryCanonical, handleTextNodeBoundary, hc]
  simp only [if_neg (by simp : ¬((s.length : Int) ≠ (s.length : Int)))]
  rw [hj]
  simp only []
  rw [hx]
  rw [specEndOfLeafCanonical]
  cases nx with
  | atomic tg bl =>
    cases bl with
    | false => simp [isAtomicComponent, isBlockElement, isTextNodeInInlineElement]
    | true => simp [isAtomicComponent, isBlockElement, isTextNodeInInlineElement]
  | text s' nInl =>
    cases inl with
    | false =>
      cases nInl with
      | false => simp [isAtomicComponent, isBlockElement, isTextNodeInInlineElement]
      | true => simp [isAtomicComponent, isBlockElement, isTextNodeInInlineElement]
    | true =>
      cases nInl with
      | false => simp [isAtomicComponent, isBlockElement, isTextNodeInInlineElement]
      | true => simp [isAtomicComponent, isBlockElement, isTextNodeInInlineElement]

theorem boundary_canonicalization_cases_witness :
    boundaryCanonical
        [Leaf.text ['H', 'e', 'l', 'l', 'o', ' '] false,
         Leaf.text ['W', 'o', 'r', 'l', 'd'] true] 0 (6 : Int) =
      specEndOfLeafCanonical 0 1 ['H', 'e', 'l', 'l', 'o', ' '] false
        (Leaf.text ['W', 'o', 'r', 'l', 'd'] true) :=
  boundary_canonicalization_cases
    [Leaf.text ['H', 'e', 'l', 'l', 'o', ' '] false,
     Leaf.text ['W', 'o', 'r', 'l', 'd'] true] 0 1
    ['H', 'e', 'l', 'l', 'o', ' '] false (Leaf.text ['W', 'o', 'r', 'l', 'd'] true)
    (by decide) (by decide) (by decide)


lemma stepA_eq_stepB (d : Dir) (st : WalkSt) (r : Rect)
    (hok : (match st.lineAnchorRect with
            | none => true
            | some anchor =>
              !(regressesB d anchor r &&
                decide (1 / 2 ≤ calculateVerticalOverlap anchor r))) = true) :
    stepA d st r = stepB d st r := by
  cases hanch : st.lineAnchorRect with
  | none => simp [stepA, stepB, hanch]
  | some anchor =>
    rw [hanch] at hok
    simp only [Bool.not_eq_true', Bool.and_eq_false_iff, decide_eq_false_iff_not,
      not_le] at hok
    cases d with
    | forward =>
      simp only [regressesB] at hok
      by_cases hP : anchor.bottom > r.bottom
      · have hQ : calculateVerticalOverlap anchor r < 1 / 2 := by
          rcases hok with hok | hok
          · exact absurd hP (by simpa using hok)
          · exact hok
        have hQ2 : calculateVerticalOverlap anchor r < 2⁻¹ := by rwa [one_div] at hQ
        simp [stepA, stepB, hanch, hP, hQ, hQ2, one_div]
      · by_cases hQ : calculateVerticalOverlap anchor r < 1 / 2 <;>
          simp [stepA, stepB, hanch, hP, hQ, one_div]
    | backward =>
      simp only [regressesB] at hok
      by_cases hP : anchor.top < r.top
      · have hQ : calculateVerticalOverlap anchor r < 1 / 2 := by
          rcases hok with hok | hok
          · exact absurd hP (by simpa using hok)
          · exact hok
        have hQ2 : calculateVerticalOverlap anchor r < 2⁻¹ := by rwa [one_div] at hQ
        simp [stepA, stepB, hanch, hP, hQ, hQ2, one_div]
      · by_cases hQ : calculateVerticalOverlap anchor r < 1 / 2 <;>
          simp [stepA, stepB, hanch, hP, hQ, one_div]

/-- Claim C10 counterexample: on two stacked rects of heights 10 and 9 with a
common top (forward direction), the first walker suppresses the second rect
(its bottom regresses behind the anchor) while the second walker emits it
(overlap ratio 1 ≥ 0.5): the two generators emit different record
sequences. -/
theorem rect_walkers_differ_cex :
    walkEmitA Dir.forward ⟨0, none⟩ [(0, ⟨0, 0, 5, 10⟩), (0, ⟨0, 0, 5, 9⟩)] ≠
      walkEmitB Dir.forward ⟨0, none⟩ [(0, ⟨0, 0, 5, 10⟩), (0, ⟨0, 0, 5, 9⟩)] := by
  have hA : walkEmitA Dir.forward ⟨0, none⟩
      [(0, ⟨0, 0, 5, 10⟩), (0, ⟨0, 0, 5, 9⟩)] = [⟨0, ⟨0, 0, 5, 10⟩, 0⟩] := by
    norm_num [walkEmitA, stepA, calculateVerticalOverlap, Rect.bottom,
      lineOffsetIncrement]
  have hB : walkEmitB Dir.forward ⟨0, none⟩
      [(0, ⟨0, 0, 5, 10⟩), (0, ⟨0, 0, 5, 9⟩)] =
      [⟨0, ⟨0, 0, 5, 10⟩, 0⟩, ⟨0, ⟨0, 0, 5, 9⟩, 0⟩] := by
    norm_num [walkEmitB, stepB, calculateVerticalOverlap, Rect.bottom,
      lineOffsetIncrement]
  rw [hA, hB]
  simp

/-- Claim C10 amended: the walkers agree whenever no rect of the stream both
regresses behind the current line anchor and overlaps it by at least 0.5; the
counterexample shows they differ otherwise, the first suppressing such rects
and the second emitting them on the current line. -/
theorem rect_walkers_agree_without_regressing_overlaps (d : Dir)
    (st : WalkSt) (rs : List (Nat × Rect))
    (h : noRegressingOverlaps d st rs = true) :
    walkEmitA d st rs = walkEmitB d st rs := by
  induction rs generalizing st with
  | nil => rfl
  | cons hd tl ih =>
    obtain ⟨n, r⟩ := hd
    rw [noRegressingOverlaps, Bool.and_eq_true] at h
    obtain ⟨hok, htl⟩ := h
    have hstep := stepA_eq_stepB d st r hok
    rw [walkEmitA, walkEmitB, ← hstep]
    rcases hs : stepA d st r with ⟨st', opt⟩
    rw [hs] at htl
    simp only [] at htl
    cases opt with
    | none => exact ih st' htl
    | some lo =>
      simp only []
      rw [ih st' htl]

theorem rect_walkers_agree_witness :
    walkEmitA Dir.forward ⟨0, none⟩ [(0, ⟨0, 0, 5, 10⟩), (1, ⟨0, 12, 5, 10⟩)] =
      walkEmitB Dir.forward ⟨0, none⟩ [(0, ⟨0, 0, 5, 10⟩), (1, ⟨0, 12, 5, 10⟩)] :=
  rect_walkers_agree_without_regressing_overlaps Dir.forward ⟨0, none⟩
    [(0, ⟨0, 0, 5, 10⟩), (1, ⟨0, 12, 5, 10⟩)]
    (by norm_num [noRegressingOverlaps, stepA, regressesB,
      calculateVerticalOverlap, Rect.bottom, lineOffsetIncrement])


/-- No leading whitespace. -/
def nlw : List Char → Bool
  | [] => true
  | c :: _ => !(isWs c)

/-- No trailing whitespace. -/
def ntw : List Char → Bool
  | [] => true
  | [c] => !(isWs c)
  | _ :: d :: rest => ntw (d :: rest)

/-- Collapsed form: every whitespace character is a space and no two
whitespace characters are adjacent. -/
def clean : List Char → Bool
  | [] => true
  | [c] => !(isWs c) || (c == ' ')
  | c :: d :: rest =>
    ((!(isWs c) || (c == ' ')) && !(isWs c && isWs d)) && clean (d :: rest)

lemma nlw_trimStart (s : List Char) : nlw (trimStart s) = true := by
  induction s with
  | nil => rfl
  | cons c rest ih =>
    rw [trimStart, List.dropWhile]
    cases hw : isWs c with
    | true => simpa [trimStart] using ih
    | false => simp [nlw, hw]

lemma trimStart_of_nlw (s : List Char) (h : nlw s = true) : trimStart s = s := by
  cases s with
  | nil => rfl
  | cons c rest =>
    rw [nlw] at h
    rw [trimStart, List.dropWhile]
    simp only [Bool.not_eq_true'] at h
    rw [h]

lemma ntw_cons (c : Char) (l : List Char) (h : l ≠ []) :
    ntw (c :: l) = ntw l := by
  cases l with
  | nil => exact absurd rfl h
  | cons d ds => rfl

lemma ntw_trimEnd (s : List Char) : ntw (trimEnd s) = true := by
  induction s with
  | nil => rfl
  | cons c rest ih =>
    rw [trimEnd]
    cases ht : trimEnd rest with
    | nil =>
      cases hw : isWs c with
      | true => simp [ntw]
      | false => simp [ntw, hw]
    | cons o os =>
      rw [ht] at ih
      rw [ntw_cons c (o :: os) (by simp)]
      exact ih

lemma trimEnd_of_ntw (s : List Char) (h : ntw s = true) : trimEnd s = s := by
  induction s with
  | nil => rfl
  | cons c rest ih =>
    cases rest with
    | nil =>
      rw [ntw] at h
      simp only [Bool.not_eq_true'] at h
      rw [trimEnd]
      simp [trimEnd, h]
    | cons d ds =>
      rw [ntw] at h
      rw [trimEnd, ih h]

lemma nlw_trimEnd (s : List Char) (h : nlw s = true) : nlw (trimEnd s) = true := by
  cases s with
  | nil => rfl
  | cons c rest =>
    rw [nlw] at h
    rw [trimEnd]
    cases trimEnd rest with
    | nil =>
      cases hw : isWs c with
      | true => rfl
      | false => simp [nlw, hw]
    | cons o os => simp [nlw, h]

lemma ntw_trimStart (s : List Char) (h : ntw s = true) : ntw (trimStart s) = true := by
  induction s with
  | nil => rfl
  | cons c rest ih =>
    rw [trimStart, List.dropWhile]
    cases hw : isWs c with
    | true =>
      simp only []
      cases rest with
      | nil => rfl
      | cons d ds =>
        rw [ntw] at h
        exact ih h
    | false =>
      simp only []
      cases rest with
      | nil => simp [ntw, hw]
      | cons d ds =>
        rw [ntw] at h ⊢
        exact h

lemma collapseWsGo_ws (inRun : Bool) (c : Char) (rest : List Char)
    (hw : isWs c = true) :
    collapseWsGo inRun (c :: rest) =
      (if inRun then collapseWsGo true rest else ' ' :: collapseWsGo true rest) := by
  simp [collapseWsGo, hw]

lemma collapseWsGo_not_ws (inRun : Bool) (c : Char) (rest : List Char)
    (hw : isWs c = false) :
    collapseWsGo inRun (c :: rest) = c :: collapseWsGo false rest := by
  simp [collapseWsGo, hw]

lemma nlw_collapseWs (s : List Char) (h : nlw s = true) :
    nlw (collapseWs s) = true := by
  cases s with
  | nil => rfl
  | cons c rest =>
    rw [nlw] at h
    simp only [Bool.not_eq_true'] at h
    rw [collapseWs, collapseWsGo_not_ws false c rest h]
    simp [nlw, h]

lemma collapseWsGo_false_ne_nil (c : Char) (rest : List Char) :
    collapseWsGo false (c :: rest) ≠ [] := by
  cases hw : isWs c with
  | true => rw [collapseWsGo_ws false c rest hw]; simp
  | false => rw [collapseWsGo_not_ws false c rest hw]; simp

lemma collapseWsGo_true_nil_all_ws (s : List Char)
    (h : collapseWsGo true s = []) : s.all isWs = true := by
  induction s with
  | nil => rfl
  | cons c rest ih =>
    cases hw : isWs c with
    | true =>
      rw [collapseWsGo_ws true c rest hw] at h
      simp only [if_pos rfl] at h
      simp [List.all_cons, hw, ih h]
    | false =>
      rw [collapseWsGo_not_ws true c rest hw] at h
      simp at h

lemma all_ws_not_ntw (s : List Char) (hne : s ≠ []) (h : s.all isWs = true) :
    ntw s = false := by
  induction s with
  | nil => exact absurd rfl hne
  | cons c rest ih =>
    rw [List.all_cons, Bool.and_eq_true] at h
    cases rest with
    | nil =>
      rw [ntw]
      simp [h.1]
    | cons d ds =>
      rw [ntw]
      exact ih (by simp) h.2

lemma ntw_collapseWsGo (s : List Char) :
    ∀ inRun : Bool, ntw s = true → ntw (collapseWsGo inRun s) = true := by
  induction s with
  | nil => intro inRun _; rfl
  | cons c rest ih =>
    intro inRun h
    cases rest with
    | nil =>
      rw [ntw] at h
      simp only [Bool.not_eq_true'] at h
      rw [collapseWsGo_not_ws inRun c [] h]
      simp [ntw, collapseWsGo, h]
    | cons d ds =>
      rw [ntw] at h
      cases hw : isWs c with
      | false =>
        rw [collapseWsGo_not_ws inRun c (d :: ds) hw]
        rw [ntw_cons c _ (collapseWsGo_false_ne_nil d ds)]
        exact ih false h
      | true =>
        rw [collapseWsGo_ws inRun c (d :: ds) hw]
        cases inRun with
        | true =>
          simp only [if_pos rfl]
          exact ih true h
        | false =>
          simp only [Bool.false_eq_true, if_false]
          cases hgo : collapseWsGo true (d :: ds) with
          | nil =>
            have hall := collapseWsGo_true_nil_all_ws (d :: ds) hgo
            have hcontra := all_ws_not_ntw (d :: ds) (by simp) hall
            rw [hcontra] at h
            cases h
          | cons o os =>
            rw [ntw_cons ' ' (o :: os) (by simp), ← hgo]
            exact ih true h

lemma ntw_collapseWs (s : List Char) (h : ntw s = true) :
    ntw (collapseWs s) = true := ntw_collapseWsGo s false h

lemma clean_cons_not_ws (c : Char) (l : List Char) (hw : isWs c = false)
    (h : clean l = true) : clean (c :: l) = true := by
  cases l with
  | nil => simp [clean, hw]
  | cons d ds =>
    simp only [clean] at h ⊢
    simp [hw, h]

lemma collapseWsGo_clean (s : List Char) :
    clean (collapseWsGo false s) = true ∧ clean (collapseWsGo true s) = true ∧
      (∀ c rest2, collapseWsGo true s = c :: rest2 → isWs c = false) := by
  induction s with
  | nil => exact ⟨rfl, rfl, by intro c rest2 h; cases h⟩
  | cons c rest ih =>
    obtain ⟨ih1, ih2, ih3⟩ := ih
    cases hw : isWs c with
    | true =>
      refine ⟨?_, ?_, ?_⟩
      · rw [collapseWsGo_ws false c rest hw]
        simp only [Bool.false_eq_true, if_false]
        cases hgo : collapseWsGo true rest with
        | nil => simp [clean, isWs]
        | cons o os =>
          rw [clean]
          have ho := ih3 o os hgo
          rw [hgo] at ih2
          simp [ho, ih2]
      · rw [collapseWsGo_ws true c rest hw]
        simp only [if_pos rfl]
        exact ih2
      · intro c2 rest2 hco
        rw [collapseWsGo_ws true c rest hw] at hco
        simp only [if_pos rfl] at hco
        exact ih3 c2 rest2 hco
    | false =>
      refine ⟨?_, ?_, ?_⟩
      · rw [collapseWsGo_not_ws false c rest hw]
        exact clean_cons_not_ws c _ hw ih1
      · rw [collapseWsGo_not_ws true c rest hw]
        exact clean_cons_not_ws c _ hw ih1
      · intro c2 rest2 hco
        rw [collapseWsGo_not_ws true c rest hw] at hco
        rw [List.cons.injEq] at hco
        rw [← hco.1]
        exact hw

lemma clean_collapseWs (s : List Char) : clean (collapseWs s) = true :=
  (collapseWsGo_clean s).1

lemma clean_tail (c : Char) (rest : List Char) (h : clean (c :: rest) = true) :
    clean rest = true := by
  cases rest with
  | nil => rfl
  | cons d ds =>
    simp only [clean, Bool.and_eq_true] at h
    exact h.2

lemma collapseWsGo_of_clean (s : List Char) (h : clean s = true) :
    collapseWsGo false s = s ∧ (nlw s = true → collapseWsGo true s = s) := by
  induction s with
  | nil => exact ⟨rfl, fun _ => rfl⟩
  | cons c rest ih =>
    obtain ⟨ih1, ih2⟩ := ih (clean_tail c rest h)
    cases hw : isWs c with
    | false =>
      constructor
      · rw [collapseWsGo_not_ws false c rest hw, ih1]
      · intro _
        rw [collapseWsGo_not_ws true c rest hw, ih1]
    | true =>
      have hc : c = ' ' := by
        cases rest with
        | nil =>
          rw [clean, hw] at h
          simpa using h
        | cons d ds =>
          simp only [clean, hw, Bool.and_eq_true] at h
          simpa using h.1.1
      have hrest : collapseWsGo true rest = rest := by
        cases rest with
        | nil => rfl
        | cons d ds =>
          have hd : isWs d = false := by
            simp only [clean, hw, Bool.and_eq_true] at h
            simpa using h.1.2
          apply ih2
          rw [nlw, hd]
          rfl
      constructor
      · rw [collapseWsGo_ws false c rest hw]
        simp only [Bool.false_eq_true, if_false]
        rw [hrest, hc]
      · intro hn
        rw [nlw, hw] at hn
        cases hn

lemma collapseWs_of_clean (s : List Char) (h : clean s = true) :
    collapseWs s = s := (collapseWsGo_of_clean s h).1

lemma clean_trimStart (s : List Char) (h : clean s = true) :
    clean (trimStart s) = true := by
  induction s with
  | nil => rfl
  | cons c rest ih =>
    rw [trimStart, List.dropWhile_cons]
    cases hw : isWs c with
    | false =>
      simp only [Bool.false_eq_true, if_false]
      exact h
    | true =>
      simp only [if_pos rfl]
      exact ih (clean_tail c rest h)

lemma trimEnd_cons_head (r : Char) (rs : List Char) (o : Char) (os : List Char)
    (h : trimEnd (r :: rs) = o :: os) : o = r := by
  rw [trimEnd] at h
  cases hte : trimEnd rs with
  | nil =>
    rw [hte] at h
    simp only [] at h
    cases hw : isWs r with
    | true => rw [hw, if_pos rfl] at h; cases h
    | false =>
      rw [hw] at h
      simp only [Bool.false_eq_true, if_false, List.cons.injEq] at h
      exact h.1.symm
  | cons p ps =>
    rw [hte] at h
    simp only [List.cons.injEq] at h
    exact h.1.symm

lemma clean_trimEnd (s : List Char) (h : clean s = true) :
    clean (trimEnd s) = true := by
  induction s with
  | nil => rfl
  | cons c rest ih =>
    have ihr := ih (clean_tail c rest h)
    rw [trimEnd]
    cases hte : trimEnd rest with
    | nil =>
      simp only []
      cases hw : isWs c with
      | true =>
        simp only [if_pos rfl]
        rfl
      | false => simp [clean, hw]
    | cons o os =>
      simp only []
      rw [hte] at ihr
      cases rest with
      | nil => cases hte
      | cons d ds =>
        have ho : o = d := trimEnd_cons_head d ds o os hte
        have hcd : (!(isWs c) || (c == ' ')) = true ∧
            (!(isWs c && isWs d)) = true := by
          simp only [clean, Bool.and_eq_true] at h
          exact ⟨h.1.1, h.1.2⟩
        subst ho
        rw [clean]
        simp [hcd.1, hcd.2, ihr]

lemma phase1Text_clean (a b c d : Bool) (s : List Char) :
    clean (phase1Text a b c d s) = true := by
  simp only [phase1Text]
  cases d with
  | true =>
    simp only [if_pos rfl]
    exact clean_trimEnd _ (clean_collapseWs _)
  | false =>
    simp only [Bool.false_eq_true, if_false]
    exact clean_collapseWs _

lemma phase1Text_nlw (a b c d : Bool) (s : List Char)
    (h : (a || c) = true) : nlw (phase1Text a b c d s) = true := by
  simp only [phase1Text]
  have h3 : nlw (if c then
      trimStart (if b then trimEnd (if a then trimStart s else s)
        else if a then trimStart s else s)
      else if b then trimEnd (if a then trimStart s else s)
        else if a then trimStart s else s) = true := by
    cases c with
    | true =>
      simp only [if_pos rfl]
      exact nlw_trimStart _
    | false =>
      simp only [Bool.false_eq_true, if_false]
      have ha : a = true := by simpa using h
      subst ha
      simp only [if_pos rfl]
      cases b with
      | true =>
        simp only [if_pos rfl]
        exact nlw_trimEnd _ (nlw_trimStart s)
      | false =>
        simp only [Bool.false_eq_true, if_false]
        exact nlw_trimStart s
  have h4 := nlw_collapseWs _ h3
  cases d with
  | true =>
    simp only [if_pos rfl]
    exact nlw_trimEnd _ h4
  | false =>
    simp only [Bool.false_eq_true, if_false]
    exact h4

lemma phase1Text_ntw (a b c d : Bool) (s : List Char)
    (h : (b || d) = true) : ntw (phase1Text a b c d s) = true := by
  simp only [phase1Text]
  cases d with
  | true =>
    simp only [if_pos rfl]
    exact ntw_trimEnd _
  | false =>
    simp only [Bool.false_eq_true, if_false]
    have hb : b = true := by simpa using h
    subst hb
    simp only [if_pos rfl]
    apply ntw_collapseWs
    cases c with
    | true =>
      simp only [if_pos rfl]
      exact ntw_trimStart _ (ntw_trimEnd _)
    | false =>
      simp only [Bool.false_eq_true, if_false]
      exact ntw_trimEnd _

lemma phase1Text_fix (a b c d : Bool) (t : List Char)
    (hclean : clean t = true)
    (hn : (a || c) = true → nlw t = true)
    (hw : (b || d) = true → ntw t = true) :
    phase1Text a b c d t = t := by
  simp only [phase1Text]
  have e1 : (if a then trimStart t else t) = t := by
    cases a with
    | true =>
      simp only [if_pos rfl]
      exact trimStart_of_nlw t (hn (by simp))
    | false => simp only [Bool.false_eq_true, if_false]
  rw [e1]
  have e2 : (if b then trimEnd t else t) = t := by
    cases b with
    | true =>
      simp only [if_pos rfl]
      exact trimEnd_of_ntw t (hw (by simp))
    | false => simp only [Bool.false_eq_true, if_false]
  rw [e2]
  have e3 : (if c then trimStart t else t) = t := by
    cases c with
    | true =>
      simp only [if_pos rfl]
      exact trimStart_of_nlw t (hn (by simp))
    | false => simp only [Bool.false_eq_true, if_false]
  rw [e3]
  rw [collapseWs_of_clean t hclean]
  cases d with
  | true =>
    simp only [if_pos rfl]
    exact trimEnd_of_ntw t (hw (by simp))
  | false => simp only [Bool.false_eq_true, if_false]

lemma phase1Text_idem (a b c d : Bool) (s : List Char) :
    phase1Text a b c d (phase1Text a b c d s) = phase1Text a b c d s :=
  phase1Text_fix a b c d _ (phase1Text_clean a b c d s)
    (phase1Text_nlw a b c d s) (phase1Text_ntw a b c d s)

lemma phase1Go_text_single (pb first prevB : Bool) (s : List Char) :
    phase1Go pb first prevB [DomNode.text s] =
      [DomNode.text (phase1Text (pb && first) (pb && true) prevB false s)] :=
  rfl

lemma phase1Go_text_cons (pb first prevB : Bool) (s : List Char)
    (m : DomNode) (rest : List DomNode) :
    phase1Go pb first prevB (DomNode.text s :: m :: rest) =
      DomNode.text
          (phase1Text (pb && first) (pb && false) prevB (isBlockNode m) s) ::
        phase1Go pb false false (m :: rest) :=
  rfl

lemma phase1Go_elem_cons (pb first prevB : Bool) (b : Bool)
    (ecs : List DomNode) (rest : List DomNode) :
    phase1Go pb first prevB (DomNode.elem b ecs :: rest) =
      DomNode.elem b (phase1Go b true false ecs) :: phase1Go pb false b rest :=
  rfl

lemma mergeTexts_text_single (s : List Char) :
    mergeTexts [DomNode.text s] =
      if s.isEmpty then [] else [DomNode.text s] :=
  rfl

lemma mergeTexts_elem_cons (b : Bool) (ecs : List DomNode)
    (rest : List DomNode) :
    mergeTexts (DomNode.elem b ecs :: rest) =
      DomNode.elem b (mergeTexts ecs) :: mergeTexts rest :=
  rfl

lemma mergeTexts_text_cons_elem (s : List Char) (rest : List DomNode)
    (b : Bool) (x out : List DomNode)
    (h : mergeTexts rest = DomNode.elem b x :: out) :
    mergeTexts (DomNode.text s :: rest) =
      if s.isEmpty then DomNode.elem b x :: out
      else DomNode.text s :: DomNode.elem b x :: out := by
  rw [show mergeTexts (DomNode.text s :: rest) =
      (match mergeTexts rest with
       | DomNode.text t :: out2 =>
         if (s ++ t).isEmpty then out2 else DomNode.text (s ++ t) :: out2
       | out2 => if s.isEmpty then out2 else DomNode.text s :: out2) from rfl]
  rw [h]

lemma noAdjTextsList_text_text (s t : List Char) (r : List DomNode) :
    noAdjTextsList (DomNode.text s :: DomNode.text t :: r) = false :=
  rfl

lemma noAdjTextsList_tail (n : DomNode) (rest : List DomNode)
    (h : noAdjTextsList (n :: rest) = true) : noAdjTextsList rest = true := by
  simp only [noAdjTextsList, Bool.and_eq_true] at h
  exact h.2

lemma noAdjTextsList_head (n : DomNode) (rest : List DomNode)
    (h : noAdjTextsList (n :: rest) = true) : noAdjTextsN n = true := by
  simp only [noAdjTextsList, Bool.and_eq_true] at h
  exact h.1.1

lemma pass_fix (pb first prevB : Bool) (cs : List DomNode)
    (h : noAdjTextsList cs = true) :
    phase1Go pb first prevB (mergeTexts (phase1Go pb first prevB cs)) =
        mergeTexts (phase1Go pb first prevB cs) ∧
      mergeTexts (mergeTexts (phase1Go pb first prevB cs)) =
        mergeTexts (phase1Go pb first prevB cs) := by
  match cs with
  | [] => exact ⟨rfl, rfl⟩
  | [DomNode.text s] =>
    rw [phase1Go_text_single, mergeTexts_text_single]
    split_ifs with he
    · exact ⟨rfl, rfl⟩
    constructor
    · rw [phase1Go_text_single, phase1Text_idem]
    · rw [mergeTexts_text_single, if_neg he]
  | DomNode.text s :: DomNode.text t :: r =>
    rw [noAdjTextsList_text_text] at h
    cases h
  | DomNode.text s :: DomNode.elem eb ecs :: r =>
    have hrest : noAdjTextsList (DomNode.elem eb ecs :: r) = true :=
      noAdjTextsList_tail _ _ h
    obtain ⟨ihP, ihM⟩ := pass_fix pb false false (DomNode.elem eb ecs :: r) hrest
    have hMR : mergeTexts (phase1Go pb false false (DomNode.elem eb ecs :: r)) =
        DomNode.elem eb (mergeTexts (phase1Go eb true false ecs)) ::
          mergeTexts (phase1Go pb false eb r) := by
      rw [phase1Go_elem_cons, mergeTexts_elem_cons]
    rw [phase1Go_text_cons]
    simp only [isBlockNode]
    rw [mergeTexts_text_cons_elem
      (phase1Text (pb && first) (pb && false) prevB eb s)
      (phase1Go pb false false (DomNode.elem eb ecs :: r)) eb
      (mergeTexts (phase1Go eb true false ecs))
      (mergeTexts (phase1Go pb false eb r)) hMR]
    rw [hMR] at ihP ihM
    split_ifs with he
    · constructor
      · rw [phase1Go_elem_cons]
        rw [phase1Go_elem_cons] at ihP
        exact ihP
      · exact ihM
    constructor
    · rw [phase1Go_text_cons]
      simp only [isBlockNode]
      rw [phase1Text_idem, ihP]
    · rw [mergeTexts_text_cons_elem
        (phase1Text (pb && first) (pb && false) prevB eb s)
        (DomNode.elem eb (mergeTexts (phase1Go eb true false ecs)) ::
          mergeTexts (phase1Go pb false eb r)) eb
        (mergeTexts (phase1Go eb true false ecs))
        (mergeTexts (phase1Go pb false eb r)) ihM]
      rw [if_neg he]
  | DomNode.elem eb ecs :: rest =>
    have hN : noAdjTextsList ecs = true := by
      have h1 := noAdjTextsList_head _ _ h
      simpa [noAdjTextsN] using h1
    have hR : noAdjTextsList rest = true := noAdjTextsList_tail _ _ h
    obtain ⟨ihP1, ihM1⟩ := pass_fix eb true false ecs hN
    obtain ⟨ihP2, ihM2⟩ := pass_fix pb false eb rest hR
    rw [phase1Go_elem_cons, mergeTexts_elem_cons]
    constructor
    · rw [phase1Go_elem_cons, ihP1, ihP2]
    · rw [mergeTexts_elem_cons, ihM1, ihM2]
termination_by sizeOf cs

/-- normalizeDocument is not idempotent in general: on a root with two
adjacent text siblings "a " and " b", one application yields the single
text "a  b" (two spaces), a second collapses it to "a b". -/
theorem normalizeDocument_not_idem_cex :
    normalizeDocument (normalizeDocument adjTextsDoc) ≠
      normalizeDocument adjTextsDoc := by
  have h1 : normalizeDocument adjTextsDoc =
      DomNode.elem false [DomNode.text ['a', ' ', ' ', 'b']] := rfl
  have h2 : normalizeDocument (normalizeDocument adjTextsDoc) =
      DomNode.elem false [DomNode.text ['a', ' ', 'b']] := rfl
  rw [h2, h1]
  intro hco
  simp at hco

/-- C9: document normalization is idempotent, amended with the necessary
precondition that no element of the input tree has two adjacent text
children (the counterexample normalizeDocument_not_idem_cex shows the
merge step otherwise feeds fresh whitespace runs to the second pass). -/
theorem normalizeDocument_idem (d : DomNode) (h : noAdjTextsN d = true) :
    normalizeDocument (normalizeDocument d) = normalizeDocument d := by
  cases d with
  | text s => rfl
  | elem b cs =>
    have hcs : noAdjTextsList cs = true := by
      simpa [noAdjTextsN] using h
    obtain ⟨hP, hM⟩ := pass_fix false true false cs hcs
    simp only [normalizeDocument]
    rw [hP, hM]

/-- Witness: the amended idempotence theorem applied to a concrete root
with separated text children. -/
theorem normalizeDocument_idem_witness :
    noAdjTextsN separatedDoc = true ∧
      normalizeDocument (normalizeDocument separatedDoc) =
        normalizeDocument separatedDoc :=
  ⟨rfl, normalizeDocument_idem separatedDoc rfl⟩

end VibeTextEditor
